import Mathlib

/-!
# Verification of the JsonTreeViewer widget's JSON → display-tree conversion

Shallow embedding of `JsonTreeViewerWidget.cpp` / `JsonTreeViewerWidget.h`
(plugin `JsonTreeViewer`).  The core logic — `ParseNode`, `BuildTree`,
`InitJsonTree`, `GetValueColorFromJsonType` and the `FTreeItem` data model —
is translated here; engine services (file system, the `FJsonSerializer`
deserializer, Slate rendering) are modelled as an explicit environment,
since they are external to the repository.
-/

/-- The engine's `EJson` enumeration of JSON value kinds. -/
inductive EJson : Type where
  | None
  | Null
  | String
  | Number
  | Boolean
  | Array
  | Object
deriving DecidableEq, Repr

/-- Models the engine's `double`.  Floating point itself is out of scope;
a number is represented opaquely by the string that the engine's
`FString::SanitizeFloat` produces for it, which is all `ParseNode` observes. -/
structure JsonDouble : Type where
  sanitized : String
deriving DecidableEq, Repr

/-- The engine's `FString::SanitizeFloat`, applied to the opaque double model. -/
def SanitizeFloat (d : JsonDouble) : String := d.sanitized

/-- The engine's `FJsonValue` tree as handed to `ParseNode` after
deserialization.  `jnone` corresponds to `EJson::None` (the `default`
branch of `ParseNode`'s switch). -/
inductive FJsonValue : Type where
  | jstring (s : String)
  | jnumber (d : JsonDouble)
  | jboolean (b : Bool)
  | jnull
  | jarray (elems : List FJsonValue)
  | jobject (fields : List (String × FJsonValue))
  | jnone
deriving Repr

/-- `FJsonValue::Type`. -/
def FJsonValue.typeOf : FJsonValue → EJson
  | .jstring _ => .String
  | .jnumber _ => .Number
  | .jboolean _ => .Boolean
  | .jnull => .Null
  | .jarray _ => .Array
  | .jobject _ => .Object
  | .jnone => .None

/-- `FTreeItem`: a node of the display tree (header, class `FTreeItem`):
key, stringified value, JSON type tag and the ordered child list. -/
inductive FTreeItem : Type where
  | mk (Key : String) (Value : String) (ValueType : EJson)
       (ChildItems : List FTreeItem)
deriving Repr

def FTreeItem.Key : FTreeItem → String
  | .mk k _ _ _ => k

def FTreeItem.Value : FTreeItem → String
  | .mk _ v _ _ => v

def FTreeItem.ValueType : FTreeItem → EJson
  | .mk _ _ t _ => t

def FTreeItem.ChildItems : FTreeItem → List FTreeItem
  | .mk _ _ _ c => c

mutual

/-- Structural equality test for tree items (nested inductives do not get
a derived `DecidableEq`). -/
def FTreeItem.beq : FTreeItem → FTreeItem → Bool
  | .mk k1 v1 t1 c1, .mk k2 v2 t2 c2 =>
      decide (k1 = k2) && decide (v1 = v2) && decide (t1 = t2)
        && FTreeItem.beqList c1 c2

def FTreeItem.beqList : List FTreeItem → List FTreeItem → Bool
  | [], [] => true
  | x :: xs, y :: ys => FTreeItem.beq x y && FTreeItem.beqList xs ys
  | [], _ :: _ => false
  | _ :: _, [] => false

end

mutual

theorem FTreeItem.beq_iff : ∀ a b : FTreeItem, FTreeItem.beq a b = true ↔ a = b
  | .mk k1 v1 t1 c1, .mk k2 v2 t2 c2 => by
    simp only [FTreeItem.beq, Bool.and_eq_true, decide_eq_true_eq,
      FTreeItem.beqList_iff c1 c2, FTreeItem.mk.injEq]
    tauto

theorem FTreeItem.beqList_iff :
    ∀ xs ys : List FTreeItem, FTreeItem.beqList xs ys = true ↔ xs = ys
  | [], [] => by simp [FTreeItem.beqList]
  | x :: xs, y :: ys => by
    simp only [FTreeItem.beqList, Bool.and_eq_true, FTreeItem.beq_iff x y,
      FTreeItem.beqList_iff xs ys, List.cons.injEq]
  | [], _ :: _ => by simp [FTreeItem.beqList]
  | _ :: _, [] => by simp [FTreeItem.beqList]

end

instance : DecidableEq FTreeItem := fun a b =>
  decidable_of_iff (FTreeItem.beq a b = true) (FTreeItem.beq_iff a b)

mutual

/-- `UJsonTreeViewerWidget::ParseNode` (cpp lines 229–308): converts one
`FJsonValue` into an `FTreeItem`.  A fresh node is created with the value's
type (`MakeShared<FTreeItem>(JsonValue->Type)`, so `Key` and `Value` start
empty); the switch then fills it per JSON kind. -/
def ParseNode : FJsonValue → FTreeItem
  | .jobject fields => .mk "" "" .Object (parseObjectMembers fields)
  | .jarray elems => .mk "" "" .Array (parseArrayElements elems)
  | .jstring s => .mk "" s .String []
  | .jnumber d => .mk "" (SanitizeFloat d) .Number []
  | .jboolean b => .mk "" (if b then "true" else "false") .Boolean []
  | .jnull => .mk "" "null" .Null []
  | .jnone => .mk "" "" .None []

/-- The `EJson::Object` loop of `ParseNode`: each member becomes a keyed
child carrying the recursively parsed value's `Value`/`ValueType`, and its
children when there are any (`if (Parsed->ChildItems.Num() > 0)`). -/
def parseObjectMembers : List (String × FJsonValue) → List FTreeItem
  | [] => []
  | (k, v) :: rest =>
      let parsed := ParseNode v
      FTreeItem.mk k parsed.Value parsed.ValueType
          (if parsed.ChildItems.length > 0 then parsed.ChildItems else [])
        :: parseObjectMembers rest

/-- The `EJson::Array` loop of `ParseNode`: an element's children are
appended (spliced upward) when it has any, otherwise the element's own
node is added. -/
def parseArrayElements : List FJsonValue → List FTreeItem
  | [] => []
  | e :: rest =>
      let parsed := ParseNode e
      (if parsed.ChildItems.length > 0 then parsed.ChildItems else [parsed])
        ++ parseArrayElements rest

end

/-- The root-array loop of `UJsonTreeViewerWidget::BuildTree` (cpp lines
201–207): `_TreeItems.Add(ParseNode(Element))` for each element. -/
def buildRootArray : List FJsonValue → List FTreeItem
  | [] => []
  | e :: rest => ParseNode e :: buildRootArray rest

/-- The root-object loop of `BuildTree` (cpp lines 209–221): each member
becomes a keyed row carrying the parsed value's `Value`/`ValueType` and,
when present, its children. -/
def buildRootObject : List (String × FJsonValue) → List FTreeItem
  | [] => []
  | (k, v) :: rest =>
      let parsed := ParseNode v
      FTreeItem.mk k parsed.Value parsed.ValueType
          (if parsed.ChildItems.length > 0 then parsed.ChildItems else [])
        :: buildRootObject rest

/-- `UJsonTreeViewerWidget::BuildTree` (cpp lines 196–227) as the value of
`_TreeItems` after the call: the list is `Reset` and refilled from the
root JSON value. -/
def BuildTree (v : FJsonValue) : List FTreeItem :=
  match v with
  | .jarray elems => buildRootArray elems
  | .jobject fields => buildRootObject fields
  | other => [ParseNode other]

/-- The splice-upward rule for one array element, as the spec words it:
the converted element's children when there are any, otherwise the
converted element node itself. -/
def spliceConverted (e : FJsonValue) : List FTreeItem :=
  if (ParseNode e).ChildItems.length > 0 then (ParseNode e).ChildItems
  else [ParseNode e]

/-- Modelled from the spec (claim C4's reading of `BuildTree`): a root
array would have each element recursively converted and its children
spliced upward into the top-level item list.  To be compared with
`BuildTree`, which is translated from the source. -/
def BuildTreeClaimedRootArray (elems : List FJsonValue) : List FTreeItem :=
  elems.flatMap spliceConverted

/-- The engine's `FLinearColor` (rgba), with exact rational components in
place of machine floats; the claims checked here never compute with the
component values. -/
structure FLinearColor : Type where
  R : Rat
  G : Rat
  B : Rat
  A : Rat
deriving DecidableEq, Repr

/-- The engine's `FSlateColor`: either a specified color or the special
`FSlateColor::UseForeground()` value that defers to the widget's default
foreground color. -/
inductive FSlateColor : Type where
  | specifiedColor (c : FLinearColor)
  | UseForeground
deriving DecidableEq, Repr

/-- The color properties of `UJsonTreeViewerWidget` (header lines 101–123),
settable from Blueprint. -/
structure WidgetColorConfig : Type where
  KeyColor : FSlateColor
  KeyAtColor : FSlateColor
  StringValueColor : FSlateColor
  BooleanValueColor : FSlateColor
  NumericValueColor : FSlateColor
  NullValueColor : FSlateColor

/-- `UJsonTreeViewerWidget::GetValueColorFromJsonType` (cpp lines 310–322):
the switch from JSON type to the configured value color, defaulting to
`FSlateColor::UseForeground()`. -/
def GetValueColorFromJsonType (w : WidgetColorConfig) : EJson → FSlateColor
  | .String => w.StringValueColor
  | .Number => w.NumericValueColor
  | .Boolean => w.BooleanValueColor
  | .Null => w.NullValueColor
  | _ => FSlateColor.UseForeground

mutual

/-- A tree item together with all of its descendants, in preorder. -/
def allSubtrees : FTreeItem → List FTreeItem
  | .mk k v ty c => .mk k v ty c :: allSubtreesList c

def allSubtreesList : List FTreeItem → List FTreeItem
  | [] => []
  | t :: ts => allSubtrees t ++ allSubtreesList ts

end

/-- The structural well-formedness of a display node: an inner node (one
with children) is tagged Object or Array and shows no value text, and a
node tagged with a primitive type (or None) is a leaf. -/
def NodeInvariant (t : FTreeItem) : Prop :=
  (t.ChildItems ≠ []
      → (t.ValueType = .Object ∨ t.ValueType = .Array) ∧ t.Value = "")
  ∧ ((t.ValueType = .String ∨ t.ValueType = .Number ∨ t.ValueType = .Boolean
        ∨ t.ValueType = .Null ∨ t.ValueType = .None)
      → t.ChildItems = [])

instance (t : FTreeItem) : Decidable (NodeInvariant t) := by
  unfold NodeInvariant; infer_instance

/-- The engine services `InitJsonTree` relies on, all external to the
repository: `FPaths::FileExists`, `FFileHelper::LoadFileToString`
(`none` = read failure), the `FJsonSerializer::Deserialize` overload
writing an `FJsonObject` (used by `IsValidJson`, result a success flag)
and the overload writing an `FJsonValue` (used by `ParseJsonContents`;
`none` = it returned false or left the out pointer invalid). -/
structure Env : Type where
  fileExists : String → Bool
  loadFileToString : String → Option String
  deserializeObject : String → Bool
  deserializeValue : String → Option FJsonValue

/-- `UJsonTreeViewerWidget::IsValidJson` (cpp lines 176–183): validity is
whatever the engine's object-overload `Deserialize` reports. -/
def IsValidJson (env : Env) (JsonString : String) : Bool :=
  env.deserializeObject JsonString

/-- `UJsonTreeViewerWidget::ParseJsonContents` (cpp lines 185–194): when
`IsValidJson` holds, deserialize into an `FJsonValue`; the result is
`some v` exactly when the caller's `ParseJsonContents(...) && _JsonValue`
test passes. -/
def ParseJsonContents (env : Env) (JsonString : String) : Option FJsonValue :=
  if IsValidJson env JsonString then env.deserializeValue JsonString else none

/-- The fields of `UJsonTreeViewerWidget` that `InitJsonTree` reads or
writes (header lines 44–64 and 99). -/
structure WidgetState : Type where
  JsonInput : String
  jsonFilePathFld : String
  jsonStringFld : String
  bValidJsonFld : Bool
  jsonValueFld : Option FJsonValue
  treeItemsFld : List FTreeItem

/-- `UJsonTreeViewerWidget::InitJsonTree` (cpp lines 89–125) as a state
transformer: classify the input as file path or raw JSON, set the
validity flag, then parse and `BuildTree` only when everything
succeeded.  `_TreeItems` is written by `BuildTree` alone. -/
def InitJsonTree (env : Env) (st : WidgetState) (JsonPathOrString : String) :
    WidgetState :=
  let st1 :=
    if env.fileExists JsonPathOrString then
      match env.loadFileToString JsonPathOrString with
      | some contents =>
          { st with JsonInput := JsonPathOrString,
                    jsonFilePathFld := JsonPathOrString,
                    jsonStringFld := contents,
                    bValidJsonFld := true }
      | none =>
          { st with JsonInput := JsonPathOrString,
                    jsonFilePathFld := JsonPathOrString,
                    bValidJsonFld := false }
    else
      if IsValidJson env JsonPathOrString then
        { st with JsonInput := JsonPathOrString,
                  jsonStringFld := JsonPathOrString,
                  bValidJsonFld := true }
      else
        { st with bValidJsonFld := false }
  if st1.bValidJsonFld then
    match ParseJsonContents env st1.jsonStringFld with
    | some v =>
        { st1 with jsonValueFld := some v, treeItemsFld := BuildTree v }
    | none => st1
  else st1

/-- The string `InitJsonTree` would hand to `ParseJsonContents` when the
input is accepted: file contents for an existing readable file, the input
itself when it passes `IsValidJson`, `none` when the call aborts. -/
def ResolveSource (env : Env) (input : String) : Option String :=
  if env.fileExists input then env.loadFileToString input
  else if IsValidJson env input then some input else none

/-- An environment in which no file exists and every string deserializes
to JSON `null`. -/
def envRawNull : Env :=
  { fileExists := fun _ => false
    loadFileToString := fun _ => none
    deserializeObject := fun _ => true
    deserializeValue := fun _ => some .jnull }

/-- An environment in which no file exists and nothing is valid JSON. -/
def envRejectAll : Env :=
  { fileExists := fun _ => false
    loadFileToString := fun _ => none
    deserializeObject := fun _ => false
    deserializeValue := fun _ => none }

/-- A widget state holding a given previously built tree. -/
def stateWithTree (items : List FTreeItem) : WidgetState :=
  { JsonInput := ""
    jsonFilePathFld := ""
    jsonStringFld := ""
    bValidJsonFld := false
    jsonValueFld := none
    treeItemsFld := items }
/-- A display node annotated with the allocation order of its
`MakeShared<FTreeItem>` call, to reason about object identity: two
occurrences with the same `nodeId` model the same heap object. -/
inductive ITreeItem : Type where
  | mk (nodeId : Nat) (Key : String) (Value : String) (ValueType : EJson)
       (ChildItems : List ITreeItem)

def ITreeItem.nodeId : ITreeItem → Nat
  | .mk i _ _ _ _ => i

def ITreeItem.Value : ITreeItem → String
  | .mk _ _ v _ _ => v

def ITreeItem.ValueType : ITreeItem → EJson
  | .mk _ _ _ t _ => t

def ITreeItem.ChildItems : ITreeItem → List ITreeItem
  | .mk _ _ _ _ c => c

mutual

/-- `ParseNode` with explicit allocation: the node for the value is
created first (`MakeShared<FTreeItem>(JsonValue->Type)` receives the next
fresh id), then the switch fills it; the next fresh id is returned. -/
def ParseNodeA : FJsonValue → Nat → ITreeItem × Nat
  | .jobject fields, n =>
      let r := parseObjectMembersA fields (n + 1)
      (.mk n "" "" .Object r.1, r.2)
  | .jarray elems, n =>
      let r := parseArrayElementsA elems (n + 1)
      (.mk n "" "" .Array r.1, r.2)
  | .jstring s, n => (.mk n "" s .String [], n + 1)
  | .jnumber d, n => (.mk n "" (SanitizeFloat d) .Number [], n + 1)
  | .jboolean b, n => (.mk n "" (if b then "true" else "false") .Boolean [], n + 1)
  | .jnull, n => (.mk n "" "null" .Null [], n + 1)
  | .jnone, n => (.mk n "" "" .None [], n + 1)

/-- The object loop with allocation: the member's value is parsed first,
then the keyed `Child` is allocated; `Child->ChildItems =
Parsed->ChildItems` shares the parsed value's child objects (their ids),
while the parsed root object itself is dropped. -/
def parseObjectMembersA : List (String × FJsonValue) → Nat → List ITreeItem × Nat
  | [], n => ([], n)
  | (k, v) :: rest, n =>
      let p := ParseNodeA v n
      let child := ITreeItem.mk p.2 k p.1.Value p.1.ValueType
        (if p.1.ChildItems.length > 0 then p.1.ChildItems else [])
      let r := parseObjectMembersA rest (p.2 + 1)
      (child :: r.1, r.2)

/-- The array loop with allocation: a parsed element's children are
appended (sharing their objects, dropping the parsed array/object root)
when present, otherwise the parsed node itself is added. -/
def parseArrayElementsA : List FJsonValue → Nat → List ITreeItem × Nat
  | [], n => ([], n)
  | e :: rest, n =>
      let p := ParseNodeA e n
      let r := parseArrayElementsA rest p.2
      ((if p.1.ChildItems.length > 0 then p.1.ChildItems else [p.1]) ++ r.1, r.2)

end

/-- The root-array loop of `BuildTree` with allocation. -/
def buildRootArrayA : List FJsonValue → Nat → List ITreeItem × Nat
  | [], n => ([], n)
  | e :: rest, n =>
      let p := ParseNodeA e n
      let r := buildRootArrayA rest p.2
      (p.1 :: r.1, r.2)

/-- `BuildTree` with allocation; its root-object loop at cpp lines
211–220 has exactly the body of `ParseNode`'s object loop, so it is
modelled by `parseObjectMembersA`. -/
def BuildTreeA (v : FJsonValue) (n : Nat) : List ITreeItem × Nat :=
  match v with
  | .jarray elems => buildRootArrayA elems n
  | .jobject fields => parseObjectMembersA fields n
  | other =>
      let p := ParseNodeA other n
      ([p.1], p.2)

mutual

/-- All node ids of a tree, in preorder: one entry per tree position. -/
def idsOf : ITreeItem → List Nat
  | .mk i _ _ _ c => i :: idsOfList c

def idsOfList : List ITreeItem → List Nat
  | [] => []
  | t :: ts => idsOf t ++ idsOfList ts

end

/-- All ids of a list lie in the interval `[lo, hi)`. -/
def IdsBounded (l : List Nat) (lo hi : Nat) : Prop :=
  ∀ i ∈ l, lo ≤ i ∧ i < hi

mutual

/-- Forgets the allocation ids, recovering a plain display node. -/
def eraseIds : ITreeItem → FTreeItem
  | .mk _ k v ty c => .mk k v ty (eraseIdsList c)

def eraseIdsList : List ITreeItem → List FTreeItem
  | [] => []
  | t :: ts => eraseIds t :: eraseIdsList ts

end

theorem ite_length_pos (l : List α) : (if l.length > 0 then l else []) = l := by
  cases l <;> simp

theorem self_mem_allSubtrees (t : FTreeItem) : t ∈ allSubtrees t := by
  cases t with
  | mk k v ty c => rw [allSubtrees]; exact List.mem_cons_self _ _

theorem mem_allSubtrees_of_mem_children {t p : FTreeItem}
    (h : t ∈ allSubtreesList p.ChildItems) : t ∈ allSubtrees p := by
  cases p with
  | mk k v ty c => rw [allSubtrees]; exact List.mem_cons_of_mem _ h

/-- `NodeInvariant` ignores the key, so rekeying a node with its own
value, type and children preserves it. -/
theorem nodeInvariant_rekey (k : String) {p : FTreeItem}
    (h : NodeInvariant p) :
    NodeInvariant (.mk k p.Value p.ValueType p.ChildItems) := by
  cases p with
  | mk k0 v ty c => exact h

theorem parseArrayElements_eq_flatMap (elems : List FJsonValue) :
    parseArrayElements elems = elems.flatMap spliceConverted := by
  induction elems with
  | nil => rfl
  | cons e rest ih => simp [parseArrayElements, spliceConverted, ih]

theorem parseObjectMembers_eq_map (fields : List (String × FJsonValue)) :
    parseObjectMembers fields
      = fields.map (fun p =>
          FTreeItem.mk p.1 (ParseNode p.2).Value (ParseNode p.2).ValueType
            (ParseNode p.2).ChildItems) := by
  induction fields with
  | nil => rfl
  | cons p rest ih =>
    obtain ⟨k, v⟩ := p
    simp only [parseObjectMembers, List.map_cons, ih, List.cons.injEq,
      FTreeItem.mk.injEq, true_and, and_true]
    cases h : (ParseNode v).ChildItems <;> simp [h]

theorem buildRootArray_eq_map (elems : List FJsonValue) :
    buildRootArray elems = elems.map ParseNode := by
  induction elems with
  | nil => rfl
  | cons e rest ih => simp [buildRootArray, ih]

/-- C1: for a JSON array, `ParseNode`'s result has as children the
concatenation, in element order, of each element's spliced conversion:
the converted element's children when it has any, else the converted
element node itself. -/
theorem parseNode_array_splices_children (elems : List FJsonValue) :
    (ParseNode (.jarray elems)).ChildItems = elems.flatMap spliceConverted := by
  simpa [ParseNode, FTreeItem.ChildItems] using parseArrayElements_eq_flatMap elems

/-- C2: for a JSON object, `ParseNode`'s result has exactly one child per
member, in member order; each child's key is the member's key, its value
and type are those of the recursively converted member value, and its
children are exactly the converted member value's children. -/
theorem parseNode_object_children (fields : List (String × FJsonValue)) :
    (ParseNode (.jobject fields)).ChildItems
      = fields.map (fun p =>
          FTreeItem.mk p.1 (ParseNode p.2).Value (ParseNode p.2).ValueType
            (ParseNode p.2).ChildItems) := by
  simpa [ParseNode, FTreeItem.ChildItems] using parseObjectMembers_eq_map fields

/-- C3: every primitive JSON value becomes a leaf with an empty key, no
children, the value's own type tag, and the stringified value: the
string's text, the sanitized number, `true`/`false`, or `null`. -/
theorem parseNode_primitive_leaf :
    (∀ s, ParseNode (.jstring s) = .mk "" s .String [])
    ∧ (∀ d, ParseNode (.jnumber d) = .mk "" (SanitizeFloat d) .Number [])
    ∧ (∀ b, ParseNode (.jboolean b)
        = .mk "" (if b then "true" else "false") .Boolean [])
    ∧ ParseNode .jnull = .mk "" "null" .Null [] :=
  ⟨fun _ => rfl, fun _ => rfl, fun _ => rfl, rfl⟩

/-- C4 counterexample: at the root, `BuildTree` does NOT splice array
elements' children upward; for the input `[[null]]` it produces one
array node wrapping the null leaf, not the spliced null leaf alone. -/
theorem buildTree_root_array_splice_cex :
    BuildTree (.jarray [.jarray [.jnull]])
      ≠ BuildTreeClaimedRootArray [.jarray [.jnull]] := by
  decide

/-- C4 amended: for a root JSON array, `BuildTree` adds each element's
converted node directly to the top-level item list, in element order,
without splicing children upward. -/
theorem buildTree_root_array_maps (elems : List FJsonValue) :
    BuildTree (.jarray elems) = elems.map ParseNode :=
  buildRootArray_eq_map elems

theorem initJsonTree_treeItems_spec (env : Env) (st : WidgetState)
    (input : String) :
    (InitJsonTree env st input).treeItemsFld
      = match ResolveSource env input with
        | some s =>
            match ParseJsonContents env s with
            | some v => BuildTree v
            | none => st.treeItemsFld
        | none => st.treeItemsFld := by
  unfold InitJsonTree ResolveSource
  rcases hf : env.fileExists input with _ | _
  · rcases hj : IsValidJson env input with _ | _
    · simp [hf, hj]
    · simp only [hf, Bool.false_eq_true, if_false, hj, if_true]
      cases hp : ParseJsonContents env input <;> simp [hp]
  · rcases hl : env.loadFileToString input with _ | contents
    · simp [hf, hl]
    · simp only [hf, if_true, hl]
      cases hp : ParseJsonContents env contents <;> simp [hp]

/-- C6: the conversion is history-free.  When the input resolves to a
source string that parses successfully, the resulting tree item list is
`BuildTree` of the parsed value alone, so two widgets with arbitrary
previously built trees end up with identical trees. -/
theorem initJsonTree_deterministic (env : Env) (input s : String)
    (v : FJsonValue) (st st' : WidgetState)
    (hs : ResolveSource env input = some s)
    (hv : ParseJsonContents env s = some v) :
    (InitJsonTree env st input).treeItemsFld = BuildTree v
    ∧ (InitJsonTree env st' input).treeItemsFld = BuildTree v := by
  constructor <;> simp only [initJsonTree_treeItems_spec, hs, hv]

/-- C10: when the input does not lead to a successful parse — it is
neither an existing file nor valid JSON, or the file cannot be read, or
the resolved contents fail to deserialize — the tree item list is left
exactly as it was. -/
theorem initJsonTree_failure_preserves_tree (env : Env) (st : WidgetState)
    (input : String)
    (h : ∀ s, ResolveSource env input = some s → ParseJsonContents env s = none) :
    (InitJsonTree env st input).treeItemsFld = st.treeItemsFld := by
  cases hs : ResolveSource env input with
  | none => simp only [initJsonTree_treeItems_spec, hs]
  | some s => simp only [initJsonTree_treeItems_spec, hs, h s hs]

theorem initJsonTree_deterministic_witness :
    (InitJsonTree envRawNull
        (stateWithTree [FTreeItem.mk "old" "1" .Number []]) "null").treeItemsFld
      = BuildTree .jnull
    ∧ (InitJsonTree envRawNull (stateWithTree []) "null").treeItemsFld
      = BuildTree .jnull :=
  initJsonTree_deterministic envRawNull "null" "null" .jnull
    (stateWithTree [FTreeItem.mk "old" "1" .Number []]) (stateWithTree [])
    rfl rfl

theorem initJsonTree_failure_preserves_tree_witness :
    (InitJsonTree envRejectAll
        (stateWithTree [FTreeItem.mk "old" "1" .Number []]) "not json").treeItemsFld
      = [FTreeItem.mk "old" "1" .Number []] :=
  initJsonTree_failure_preserves_tree envRejectAll
    (stateWithTree [FTreeItem.mk "old" "1" .Number []]) "not json"
    (fun s hs => by simp [ResolveSource, IsValidJson, envRejectAll] at hs)

/-- C8: `GetValueColorFromJsonType` returns exactly the configured
per-type color for String/Number/Boolean/Null and the default foreground
color for Object, Array and None. -/
theorem getValueColor_per_type (w : WidgetColorConfig) :
    GetValueColorFromJsonType w .String = w.StringValueColor
    ∧ GetValueColorFromJsonType w .Number = w.NumericValueColor
    ∧ GetValueColorFromJsonType w .Boolean = w.BooleanValueColor
    ∧ GetValueColorFromJsonType w .Null = w.NullValueColor
    ∧ GetValueColorFromJsonType w .Object = FSlateColor.UseForeground
    ∧ GetValueColorFromJsonType w .Array = FSlateColor.UseForeground
    ∧ GetValueColorFromJsonType w .None = FSlateColor.UseForeground :=
  ⟨rfl, rfl, rfl, rfl, rfl, rfl, rfl⟩

theorem mem_allSubtreesList_iff (ts : List FTreeItem) (t : FTreeItem) :
    t ∈ allSubtreesList ts ↔ ∃ u ∈ ts, t ∈ allSubtrees u := by
  induction ts with
  | nil => simp [allSubtreesList]
  | cons u us ih =>
    rw [allSubtreesList, List.mem_append, ih]
    constructor
    · rintro (h | ⟨w, hw, ht⟩)
      · exact ⟨u, List.mem_cons_self _ _, h⟩
      · exact ⟨w, List.mem_cons_of_mem _ hw, ht⟩
    · rintro ⟨w, hw, ht⟩
      rcases List.mem_cons.1 hw with rfl | hw
      · exact Or.inl ht
      · exact Or.inr ⟨w, hw, ht⟩

mutual

theorem parseNode_nodeInvariant :
    ∀ (v : FJsonValue) (t : FTreeItem),
      t ∈ allSubtrees (ParseNode v) → NodeInvariant t
  | .jobject fields, t, ht => by
    rw [ParseNode, allSubtrees] at ht
    rcases List.mem_cons.1 ht with rfl | ht
    · exact ⟨fun _ => ⟨Or.inl rfl, rfl⟩, by simp [FTreeItem.ValueType]⟩
    · exact parseObjectMembers_nodeInvariant fields t ht
  | .jarray elems, t, ht => by
    rw [ParseNode, allSubtrees] at ht
    rcases List.mem_cons.1 ht with rfl | ht
    · exact ⟨fun _ => ⟨Or.inr rfl, rfl⟩, by simp [FTreeItem.ValueType]⟩
    · exact parseArrayElements_nodeInvariant elems t ht
  | .jstring s, t, ht => by
    rw [ParseNode, allSubtrees, allSubtreesList] at ht
    rcases List.mem_cons.1 ht with rfl | ht
    · exact ⟨fun hc => absurd rfl hc, fun _ => rfl⟩
    · cases ht
  | .jnumber d, t, ht => by
    rw [ParseNode, allSubtrees, allSubtreesList] at ht
    rcases List.mem_cons.1 ht with rfl | ht
    · exact ⟨fun hc => absurd rfl hc, fun _ => rfl⟩
    · cases ht
  | .jboolean b, t, ht => by
    rw [ParseNode, allSubtrees, allSubtreesList] at ht
    rcases List.mem_cons.1 ht with rfl | ht
    · exact ⟨fun hc => absurd rfl hc, fun _ => rfl⟩
    · cases ht
  | .jnull, t, ht => by
    rw [ParseNode, allSubtrees, allSubtreesList] at ht
    rcases List.mem_cons.1 ht with rfl | ht
    · exact ⟨fun hc => absurd rfl hc, fun _ => rfl⟩
    · cases ht
  | .jnone, t, ht => by
    rw [ParseNode, allSubtrees, allSubtreesList] at ht
    rcases List.mem_cons.1 ht with rfl | ht
    · exact ⟨fun hc => absurd rfl hc, fun _ => rfl⟩
    · cases ht

theorem parseObjectMembers_nodeInvariant :
    ∀ (fields : List (String × FJsonValue)) (t : FTreeItem),
      t ∈ allSubtreesList (parseObjectMembers fields) → NodeInvariant t
  | [], t, ht => by rw [parseObjectMembers, allSubtreesList] at ht; cases ht
  | (k, v) :: rest, t, ht => by
    rw [parseObjectMembers, allSubtreesList] at ht
    rcases List.mem_append.1 ht with ht | ht
    · rw [ite_length_pos, allSubtrees] at ht
      rcases List.mem_cons.1 ht with rfl | ht
      · exact nodeInvariant_rekey k
          (parseNode_nodeInvariant v (ParseNode v) (self_mem_allSubtrees _))
      · exact parseNode_nodeInvariant v t (mem_allSubtrees_of_mem_children ht)
    · exact parseObjectMembers_nodeInvariant rest t ht

theorem parseArrayElements_nodeInvariant :
    ∀ (elems : List FJsonValue) (t : FTreeItem),
      t ∈ allSubtreesList (parseArrayElements elems) → NodeInvariant t
  | [], t, ht => by rw [parseArrayElements, allSubtreesList] at ht; cases ht
  | e :: rest, t, ht => by
    rw [parseArrayElements] at ht
    rw [mem_allSubtreesList_iff] at ht
    obtain ⟨u, hu, htu⟩ := ht
    rcases List.mem_append.1 hu with hu | hu
    · by_cases hc : (ParseNode e).ChildItems.length > 0
      · rw [if_pos hc] at hu
        exact parseNode_nodeInvariant e t
          (mem_allSubtrees_of_mem_children
            ((mem_allSubtreesList_iff _ _).2 ⟨u, hu, htu⟩))
      · rw [if_neg hc] at hu
        rcases List.mem_singleton.1 hu with rfl
        exact parseNode_nodeInvariant e t htu
    · exact parseArrayElements_nodeInvariant rest t
        ((mem_allSubtreesList_iff _ _).2 ⟨u, hu, htu⟩)

end

theorem buildRootObject_eq_parseObjectMembers
    (fields : List (String × FJsonValue)) :
    buildRootObject fields = parseObjectMembers fields := by
  induction fields with
  | nil => rfl
  | cons p rest ih =>
    obtain ⟨k, v⟩ := p
    rw [buildRootObject, parseObjectMembers, ih]

/-- C9: in every tree produced by `BuildTree` or `ParseNode`, a node with
children is tagged Object or Array and has an empty value string, and a
node tagged String/Number/Boolean/Null/None is a leaf. -/
theorem buildTree_nodeInvariant (v : FJsonValue) (t : FTreeItem)
    (h : t ∈ allSubtreesList (BuildTree v) ∨ t ∈ allSubtrees (ParseNode v)) :
    NodeInvariant t := by
  rcases h with h | h
  · match v with
    | .jarray elems =>
      rw [BuildTree, buildRootArray_eq_map, mem_allSubtreesList_iff] at h
      obtain ⟨u, hu, htu⟩ := h
      obtain ⟨e, _, rfl⟩ := List.mem_map.1 hu
      exact parseNode_nodeInvariant e t htu
    | .jobject fields =>
      rw [BuildTree, buildRootObject_eq_parseObjectMembers] at h
      exact parseObjectMembers_nodeInvariant fields t h
    | .jstring s =>
      have hb : BuildTree (.jstring s) = [ParseNode (.jstring s)] := rfl
      rw [hb, allSubtreesList, allSubtreesList, List.append_nil] at h
      exact parseNode_nodeInvariant _ t h
    | .jnumber d =>
      have hb : BuildTree (.jnumber d) = [ParseNode (.jnumber d)] := rfl
      rw [hb, allSubtreesList, allSubtreesList, List.append_nil] at h
      exact parseNode_nodeInvariant _ t h
    | .jboolean b =>
      have hb : BuildTree (.jboolean b) = [ParseNode (.jboolean b)] := rfl
      rw [hb, allSubtreesList, allSubtreesList, List.append_nil] at h
      exact parseNode_nodeInvariant _ t h
    | .jnull =>
      have hb : BuildTree .jnull = [ParseNode .jnull] := rfl
      rw [hb, allSubtreesList, allSubtreesList, List.append_nil] at h
      exact parseNode_nodeInvariant _ t h
    | .jnone =>
      have hb : BuildTree .jnone = [ParseNode .jnone] := rfl
      rw [hb, allSubtreesList, allSubtreesList, List.append_nil] at h
      exact parseNode_nodeInvariant _ t h
  · exact parseNode_nodeInvariant v t h

theorem buildTree_nodeInvariant_witness :
    NodeInvariant (FTreeItem.mk "a" "" .Object [FTreeItem.mk "b" "null" .Null []]) :=
  buildTree_nodeInvariant (.jobject [("a", .jobject [("b", .jnull)])])
    (FTreeItem.mk "a" "" .Object [FTreeItem.mk "b" "null" .Null []])
    (Or.inl (by decide))

theorem IdsBounded.mono {l : List Nat} {lo hi lo' hi' : Nat}
    (h : IdsBounded l lo hi) (hlo : lo' ≤ lo) (hhi : hi ≤ hi') :
    IdsBounded l lo' hi' :=
  fun i hi0 => ⟨le_trans hlo (h i hi0).1, lt_of_lt_of_le (h i hi0).2 hhi⟩

theorem IdsBounded.append {xs ys : List Nat} {lo hi : Nat}
    (hx : IdsBounded xs lo hi) (hy : IdsBounded ys lo hi) :
    IdsBounded (xs ++ ys) lo hi := by
  intro i hi0
  rcases List.mem_append.1 hi0 with h | h
  · exact hx i h
  · exact hy i h

theorem nodup_append_of_bounded {xs ys : List Nat} {lo mid hi : Nat}
    (hx : IdsBounded xs lo mid) (hy : IdsBounded ys mid hi)
    (nx : xs.Nodup) (ny : ys.Nodup) : (xs ++ ys).Nodup := by
  refine nx.append ny ?_
  intro a ha hb
  exact absurd (hy a hb).1 (not_le.2 (hx a ha).2)

theorem idsOf_eq (t : ITreeItem) :
    idsOf t = t.nodeId :: idsOfList t.ChildItems := by
  cases t with
  | mk i k v ty c => rfl

theorem idsOfList_append (xs ys : List ITreeItem) :
    idsOfList (xs ++ ys) = idsOfList xs ++ idsOfList ys := by
  induction xs with
  | nil => rw [List.nil_append, idsOfList, List.nil_append]
  | cons t ts ih =>
    rw [List.cons_append, idsOfList, idsOfList, ih, List.append_assoc]

mutual

theorem parseNodeA_ids : ∀ (v : FJsonValue) (n : Nat),
    n < (ParseNodeA v n).2
    ∧ IdsBounded (idsOf (ParseNodeA v n).1) n (ParseNodeA v n).2
    ∧ (idsOf (ParseNodeA v n).1).Nodup
  | .jobject fields, n => by
    obtain ⟨h1, h2, h3⟩ := parseObjectMembersA_ids fields (n + 1)
    refine ⟨lt_of_lt_of_le (Nat.lt_succ_self n) h1, ?_, ?_⟩
    · intro i hi
      rw [show (ParseNodeA (.jobject fields) n).1
            = .mk n "" "" .Object (parseObjectMembersA fields (n + 1)).1 from rfl,
        idsOf] at hi
      rcases List.mem_cons.1 hi with rfl | hi
      · exact ⟨le_refl _, lt_of_lt_of_le (Nat.lt_succ_self i) h1⟩
      · exact (h2.mono (Nat.le_succ n) (le_refl _)) i hi
    · rw [show (ParseNodeA (.jobject fields) n).1
            = .mk n "" "" .Object (parseObjectMembersA fields (n + 1)).1 from rfl,
        idsOf]
      refine List.nodup_cons.2 ⟨fun hmem => ?_, h3⟩
      exact absurd (h2 n hmem).1 (Nat.not_succ_le_self n)
  | .jarray elems, n => by
    obtain ⟨h1, h2, h3⟩ := parseArrayElementsA_ids elems (n + 1)
    refine ⟨lt_of_lt_of_le (Nat.lt_succ_self n) h1, ?_, ?_⟩
    · intro i hi
      rw [show (ParseNodeA (.jarray elems) n).1
            = .mk n "" "" .Array (parseArrayElementsA elems (n + 1)).1 from rfl,
        idsOf] at hi
      rcases List.mem_cons.1 hi with rfl | hi
      · exact ⟨le_refl _, lt_of_lt_of_le (Nat.lt_succ_self i) h1⟩
      · exact (h2.mono (Nat.le_succ n) (le_refl _)) i hi
    · rw [show (ParseNodeA (.jarray elems) n).1
            = .mk n "" "" .Array (parseArrayElementsA elems (n + 1)).1 from rfl,
        idsOf]
      refine List.nodup_cons.2 ⟨fun hmem => ?_, h3⟩
      exact absurd (h2 n hmem).1 (Nat.not_succ_le_self n)
  | .jstring s, n => by
    refine ⟨Nat.lt_succ_self n, ?_, ?_⟩
    · intro i hi
      rcases List.mem_singleton.1 hi with rfl
      exact ⟨le_refl _, Nat.lt_succ_self _⟩
    · exact List.nodup_singleton _
  | .jnumber d, n => by
    refine ⟨Nat.lt_succ_self n, ?_, ?_⟩
    · intro i hi
      rcases List.mem_singleton.1 hi with rfl
      exact ⟨le_refl _, Nat.lt_succ_self _⟩
    · exact List.nodup_singleton _
  | .jboolean b, n => by
    refine ⟨Nat.lt_succ_self n, ?_, ?_⟩
    · intro i hi
      rcases List.mem_singleton.1 hi with rfl
      exact ⟨le_refl _, Nat.lt_succ_self _⟩
    · exact List.nodup_singleton _
  | .jnull, n => by
    refine ⟨Nat.lt_succ_self n, ?_, ?_⟩
    · intro i hi
      rcases List.mem_singleton.1 hi with rfl
      exact ⟨le_refl _, Nat.lt_succ_self _⟩
    · exact List.nodup_singleton _
  | .jnone, n => by
    refine ⟨Nat.lt_succ_self n, ?_, ?_⟩
    · intro i hi
      rcases List.mem_singleton.1 hi with rfl
      exact ⟨le_refl _, Nat.lt_succ_self _⟩
    · exact List.nodup_singleton _

theorem parseObjectMembersA_ids : ∀ (fields : List (String × FJsonValue)) (n : Nat),
    n ≤ (parseObjectMembersA fields n).2
    ∧ IdsBounded (idsOfList (parseObjectMembersA fields n).1) n
        (parseObjectMembersA fields n).2
    ∧ (idsOfList (parseObjectMembersA fields n).1).Nodup
  | [], n => ⟨le_refl n, fun i hi => absurd hi (List.not_mem_nil i), List.nodup_nil⟩
  | (k, v) :: rest, n => by
    obtain ⟨hp1, hp2, hp3⟩ := parseNodeA_ids v n
    obtain ⟨hr1, hr2, hr3⟩ := parseObjectMembersA_ids rest ((ParseNodeA v n).2 + 1)
    have hchild : idsOf (ITreeItem.mk (ParseNodeA v n).2 k (ParseNodeA v n).1.Value
          (ParseNodeA v n).1.ValueType
          (if (ParseNodeA v n).1.ChildItems.length > 0
           then (ParseNodeA v n).1.ChildItems else []))
        = (ParseNodeA v n).2 :: idsOfList (ParseNodeA v n).1.ChildItems := by
      rw [ite_length_pos, idsOf]
    have htail : IdsBounded (idsOfList (ParseNodeA v n).1.ChildItems) n
        (ParseNodeA v n).2 := by
      intro i hi
      exact hp2 i (by rw [idsOf_eq]; exact List.mem_cons_of_mem _ hi)
    have htailnd : (idsOfList (ParseNodeA v n).1.ChildItems).Nodup := by
      have := hp3
      rw [idsOf_eq] at this
      exact this.of_cons
    have hchildbd : IdsBounded (idsOf (ITreeItem.mk (ParseNodeA v n).2 k
          (ParseNodeA v n).1.Value (ParseNodeA v n).1.ValueType
          (if (ParseNodeA v n).1.ChildItems.length > 0
           then (ParseNodeA v n).1.ChildItems else [])))
        n ((ParseNodeA v n).2 + 1) := by
      rw [hchild]
      intro i hi
      rcases List.mem_cons.1 hi with rfl | hi
      · exact ⟨le_of_lt hp1, Nat.lt_succ_self _⟩
      · exact ⟨(htail i hi).1, lt_of_lt_of_le (htail i hi).2 (Nat.le_succ _)⟩
    have hchildnd : (idsOf (ITreeItem.mk (ParseNodeA v n).2 k
          (ParseNodeA v n).1.Value (ParseNodeA v n).1.ValueType
          (if (ParseNodeA v n).1.ChildItems.length > 0
           then (ParseNodeA v n).1.ChildItems else []))).Nodup := by
      rw [hchild]
      refine List.nodup_cons.2 ⟨fun hmem => ?_, htailnd⟩
      exact absurd (htail _ hmem).2 (lt_irrefl _)
    refine ⟨?_, ?_, ?_⟩
    · show n ≤ (parseObjectMembersA rest ((ParseNodeA v n).2 + 1)).2
      exact le_trans (le_of_lt hp1) (le_trans (Nat.le_succ _) hr1)
    · show IdsBounded (idsOfList (ITreeItem.mk (ParseNodeA v n).2 k
          (ParseNodeA v n).1.Value (ParseNodeA v n).1.ValueType
          (if (ParseNodeA v n).1.ChildItems.length > 0
           then (ParseNodeA v n).1.ChildItems else [])
          :: (parseObjectMembersA rest ((ParseNodeA v n).2 + 1)).1)) n
          (parseObjectMembersA rest ((ParseNodeA v n).2 + 1)).2
      rw [idsOfList]
      exact (hchildbd.mono (le_refl _) hr1).append
        (hr2.mono (le_trans (le_of_lt hp1) (Nat.le_succ _)) (le_refl _))
    · show (idsOfList (ITreeItem.mk (ParseNodeA v n).2 k
          (ParseNodeA v n).1.Value (ParseNodeA v n).1.ValueType
          (if (ParseNodeA v n).1.ChildItems.length > 0
           then (ParseNodeA v n).1.ChildItems else [])
          :: (parseObjectMembersA rest ((ParseNodeA v n).2 + 1)).1)).Nodup
      rw [idsOfList]
      exact nodup_append_of_bounded hchildbd hr2 hchildnd hr3

theorem parseArrayElementsA_ids : ∀ (elems : List FJsonValue) (n : Nat),
    n ≤ (parseArrayElementsA elems n).2
    ∧ IdsBounded (idsOfList (parseArrayElementsA elems n).1) n
        (parseArrayElementsA elems n).2
    ∧ (idsOfList (parseArrayElementsA elems n).1).Nodup
  | [], n => ⟨le_refl n, fun i hi => absurd hi (List.not_mem_nil i), List.nodup_nil⟩
  | e :: rest, n => by
    obtain ⟨hp1, hp2, hp3⟩ := parseNodeA_ids e n
    obtain ⟨hr1, hr2, hr3⟩ := parseArrayElementsA_ids rest (ParseNodeA e n).2
    have hsplice : IdsBounded (idsOfList
          (if (ParseNodeA e n).1.ChildItems.length > 0
           then (ParseNodeA e n).1.ChildItems else [(ParseNodeA e n).1]))
          n (ParseNodeA e n).2
        ∧ (idsOfList
          (if (ParseNodeA e n).1.ChildItems.length > 0
           then (ParseNodeA e n).1.ChildItems else [(ParseNodeA e n).1])).Nodup := by
      by_cases hc : (ParseNodeA e n).1.ChildItems.length > 0
      · rw [if_pos hc]
        constructor
        · intro i hi
          exact hp2 i (by rw [idsOf_eq]; exact List.mem_cons_of_mem _ hi)
        · have := hp3
          rw [idsOf_eq] at this
          exact this.of_cons
      · rw [if_neg hc]
        constructor
        · intro i hi
          rw [idsOfList, idsOfList, List.append_nil] at hi
          exact hp2 i hi
        · rw [idsOfList, idsOfList, List.append_nil]
          exact hp3
    refine ⟨?_, ?_, ?_⟩
    · show n ≤ (parseArrayElementsA rest (ParseNodeA e n).2).2
      exact le_trans (le_of_lt hp1) hr1
    · show IdsBounded (idsOfList
          ((if (ParseNodeA e n).1.ChildItems.length > 0
            then (ParseNodeA e n).1.ChildItems else [(ParseNodeA e n).1])
           ++ (parseArrayElementsA rest (ParseNodeA e n).2).1)) n
          (parseArrayElementsA rest (ParseNodeA e n).2).2
      rw [idsOfList_append]
      exact (hsplice.1.mono (le_refl _) hr1).append
        (hr2.mono (le_of_lt hp1) (le_refl _))
    · show (idsOfList
          ((if (ParseNodeA e n).1.ChildItems.length > 0
            then (ParseNodeA e n).1.ChildItems else [(ParseNodeA e n).1])
           ++ (parseArrayElementsA rest (ParseNodeA e n).2).1)).Nodup
      rw [idsOfList_append]
      exact nodup_append_of_bounded hsplice.1 hr2 hsplice.2 hr3

end

theorem buildRootArrayA_ids (elems : List FJsonValue) (n : Nat) :
    n ≤ (buildRootArrayA elems n).2
    ∧ IdsBounded (idsOfList (buildRootArrayA elems n).1) n
        (buildRootArrayA elems n).2
    ∧ (idsOfList (buildRootArrayA elems n).1).Nodup := by
  induction elems generalizing n with
  | nil => exact ⟨le_refl n, fun i hi => absurd hi (List.not_mem_nil i), List.nodup_nil⟩
  | cons e rest ih =>
    obtain ⟨hp1, hp2, hp3⟩ := parseNodeA_ids e n
    obtain ⟨hr1, hr2, hr3⟩ := ih (ParseNodeA e n).2
    refine ⟨?_, ?_, ?_⟩
    · show n ≤ (buildRootArrayA rest (ParseNodeA e n).2).2
      exact le_trans (le_of_lt hp1) hr1
    · show IdsBounded (idsOfList ((ParseNodeA e n).1
            :: (buildRootArrayA rest (ParseNodeA e n).2).1)) n
          (buildRootArrayA rest (ParseNodeA e n).2).2
      rw [idsOfList]
      exact (hp2.mono (le_refl _) hr1).append (hr2.mono (le_of_lt hp1) (le_refl _))
    · show (idsOfList ((ParseNodeA e n).1
            :: (buildRootArrayA rest (ParseNodeA e n).2).1)).Nodup
      rw [idsOfList]
      exact nodup_append_of_bounded hp2 hr2 hp3 hr3

/-- C7: every tree built by `BuildTree`/`ParseNode` is a finite simple
tree.  Node ids record which `MakeShared<FTreeItem>` call produced each
node object; `Nodup` of the preorder id traversal says every node object
occupies exactly one position in the final forest — so no object is
shared between two parent positions, and no object is a descendant of
itself. -/
theorem buildTree_simple_tree (v : FJsonValue) (n : Nat) :
    (idsOfList (BuildTreeA v n).1).Nodup
    ∧ (idsOf (ParseNodeA v n).1).Nodup := by
  refine ⟨?_, (parseNodeA_ids v n).2.2⟩
  match v with
  | .jarray elems => exact (buildRootArrayA_ids elems n).2.2
  | .jobject fields => exact (parseObjectMembersA_ids fields n).2.2
  | .jstring s =>
    have h : BuildTreeA (.jstring s) n = ([(ParseNodeA (.jstring s) n).1],
        (ParseNodeA (.jstring s) n).2) := rfl
    rw [h, idsOfList, idsOfList, List.append_nil]
    exact (parseNodeA_ids (.jstring s) n).2.2
  | .jnumber d =>
    have h : BuildTreeA (.jnumber d) n = ([(ParseNodeA (.jnumber d) n).1],
        (ParseNodeA (.jnumber d) n).2) := rfl
    rw [h, idsOfList, idsOfList, List.append_nil]
    exact (parseNodeA_ids (.jnumber d) n).2.2
  | .jboolean b =>
    have h : BuildTreeA (.jboolean b) n = ([(ParseNodeA (.jboolean b) n).1],
        (ParseNodeA (.jboolean b) n).2) := rfl
    rw [h, idsOfList, idsOfList, List.append_nil]
    exact (parseNodeA_ids (.jboolean b) n).2.2
  | .jnull =>
    have h : BuildTreeA .jnull n = ([(ParseNodeA .jnull n).1],
        (ParseNodeA .jnull n).2) := rfl
    rw [h, idsOfList, idsOfList, List.append_nil]
    exact (parseNodeA_ids .jnull n).2.2
  | .jnone =>
    have h : BuildTreeA .jnone n = ([(ParseNodeA .jnone n).1],
        (ParseNodeA .jnone n).2) := rfl
    rw [h, idsOfList, idsOfList, List.append_nil]
    exact (parseNodeA_ids .jnone n).2.2

theorem eraseIds_eq (t : ITreeItem) :
    eraseIds t = .mk (match t with | .mk _ k _ _ _ => k) t.Value t.ValueType
      (eraseIdsList t.ChildItems) := by
  cases t with
  | mk i k v ty c => rfl

theorem eraseIdsList_append (xs ys : List ITreeItem) :
    eraseIdsList (xs ++ ys) = eraseIdsList xs ++ eraseIdsList ys := by
  induction xs with
  | nil => rw [List.nil_append, eraseIdsList, List.nil_append]
  | cons t ts ih => rw [List.cons_append, eraseIdsList, eraseIdsList, ih, List.cons_append]

theorem eraseIdsList_length (xs : List ITreeItem) :
    (eraseIdsList xs).length = xs.length := by
  induction xs with
  | nil => rfl
  | cons t ts ih => rw [eraseIdsList, List.length_cons, List.length_cons, ih]

mutual

/-- The id-annotated conversion erases to the plain one: `ParseNodeA` is
`ParseNode` plus bookkeeping. -/
theorem parseNodeA_erase : ∀ (v : FJsonValue) (n : Nat),
    eraseIds (ParseNodeA v n).1 = ParseNode v
  | .jobject fields, n => by
    show FTreeItem.mk "" "" .Object (eraseIdsList (parseObjectMembersA fields (n + 1)).1)
        = ParseNode (.jobject fields)
    rw [parseObjectMembersA_erase fields (n + 1), ParseNode]
  | .jarray elems, n => by
    show FTreeItem.mk "" "" .Array (eraseIdsList (parseArrayElementsA elems (n + 1)).1)
        = ParseNode (.jarray elems)
    rw [parseArrayElementsA_erase elems (n + 1), ParseNode]
  | .jstring s, n => rfl
  | .jnumber d, n => rfl
  | .jboolean b, n => rfl
  | .jnull, n => rfl
  | .jnone, n => rfl

theorem parseObjectMembersA_erase : ∀ (fields : List (String × FJsonValue)) (n : Nat),
    eraseIdsList (parseObjectMembersA fields n).1 = parseObjectMembers fields
  | [], n => rfl
  | (k, v) :: rest, n => by
    have hv := parseNodeA_erase v n
    have hval : (ParseNode v).Value = (ParseNodeA v n).1.Value := by
      rw [← hv, eraseIds_eq, FTreeItem.Value]
    have hty : (ParseNode v).ValueType = (ParseNodeA v n).1.ValueType := by
      rw [← hv, eraseIds_eq, FTreeItem.ValueType]
    have hch : (ParseNode v).ChildItems = eraseIdsList (ParseNodeA v n).1.ChildItems := by
      rw [← hv, eraseIds_eq, FTreeItem.ChildItems]
    show FTreeItem.mk k (ParseNodeA v n).1.Value (ParseNodeA v n).1.ValueType
          (eraseIdsList (if (ParseNodeA v n).1.ChildItems.length > 0
            then (ParseNodeA v n).1.ChildItems else []))
          :: eraseIdsList (parseObjectMembersA rest ((ParseNodeA v n).2 + 1)).1
        = parseObjectMembers ((k, v) :: rest)
    rw [parseObjectMembersA_erase rest ((ParseNodeA v n).2 + 1), parseObjectMembers,
      ite_length_pos, ite_length_pos, ← hch, ← hval, ← hty]

theorem parseArrayElementsA_erase : ∀ (elems : List FJsonValue) (n : Nat),
    eraseIdsList (parseArrayElementsA elems n).1 = parseArrayElements elems
  | [], n => rfl
  | e :: rest, n => by
    have he := parseNodeA_erase e n
    have hch : (ParseNode e).ChildItems = eraseIdsList (ParseNodeA e n).1.ChildItems := by
      rw [← he, eraseIds_eq, FTreeItem.ChildItems]
    have hlen : (ParseNode e).ChildItems.length = (ParseNodeA e n).1.ChildItems.length := by
      rw [hch, eraseIdsList_length]
    show eraseIdsList ((if (ParseNodeA e n).1.ChildItems.length > 0
          then (ParseNodeA e n).1.ChildItems else [(ParseNodeA e n).1])
          ++ (parseArrayElementsA rest (ParseNodeA e n).2).1)
        = parseArrayElements (e :: rest)
    rw [eraseIdsList_append, parseArrayElementsA_erase rest (ParseNodeA e n).2,
      parseArrayElements]
    by_cases hc : (ParseNodeA e n).1.ChildItems.length > 0
    · rw [if_pos hc, if_pos (by rw [hlen]; exact hc), hch]
    · rw [if_neg hc, if_neg (by rw [hlen]; exact hc)]
      show eraseIds (ParseNodeA e n).1 :: eraseIdsList []
            ++ parseArrayElements rest = _
      rw [he, eraseIdsList]

end

/-- `BuildTreeA` erases to `BuildTree`: the allocation-annotated top-level
build produces the same display forest. -/
theorem buildTreeA_erase (v : FJsonValue) (n : Nat) :
    eraseIdsList (BuildTreeA v n).1 = BuildTree v := by
  match v with
  | .jarray elems =>
    show eraseIdsList (buildRootArrayA elems n).1 = buildRootArray elems
    induction elems generalizing n with
    | nil => rfl
    | cons e rest ih =>
      show eraseIds (ParseNodeA e n).1
            :: eraseIdsList (buildRootArrayA rest (ParseNodeA e n).2).1
          = buildRootArray (e :: rest)
      rw [parseNodeA_erase, ih, buildRootArray]
  | .jobject fields =>
    show eraseIdsList (parseObjectMembersA fields n).1 = buildRootObject fields
    rw [parseObjectMembersA_erase, buildRootObject_eq_parseObjectMembers]
  | .jstring s =>
    show eraseIds (ParseNodeA (.jstring s) n).1 :: eraseIdsList [] = _
    rw [parseNodeA_erase, eraseIdsList]
    rfl
  | .jnumber d =>
    show eraseIds (ParseNodeA (.jnumber d) n).1 :: eraseIdsList [] = _
    rw [parseNodeA_erase, eraseIdsList]
    rfl
  | .jboolean b =>
    show eraseIds (ParseNodeA (.jboolean b) n).1 :: eraseIdsList [] = _
    rw [parseNodeA_erase, eraseIdsList]
    rfl
  | .jnull =>
    show eraseIds (ParseNodeA .jnull n).1 :: eraseIdsList [] = _
    rw [parseNodeA_erase, eraseIdsList]
    rfl
  | .jnone =>
    show eraseIds (ParseNodeA .jnone n).1 :: eraseIdsList [] = _
    rw [parseNodeA_erase, eraseIdsList]
    rfl
